import Mathlib

/-!
Verification of the bounded SPSC channel of `src/spsc_channel.rs`.

The channel state (`SyncQueue`) is embedded as a pure record: the two
monotone counters `head` and `tail`, the two same-side caches
`tail_cache` and `head_cache`, and the backing storage `buffer`.  The
storage is modelled as a list of `N` slots; a slot holds `some v` when a
live (written, not yet moved-out) element `v` sits there, and `none` when
the slot's memory is uninitialized or its element has been moved out by
`ptr::read` in `pop`.  The cache-line padding fields carry no semantic
content and are omitted.  Operations are executed atomically, which is the
sequentially-consistent interleaving view of the single-producer /
single-consumer protocol.  The `usize` counters are modelled as unbounded
naturals: they are monotone and non-wrapping in the protocol, and no claim
concerns behaviour at the 2^64 operation mark.
-/

/-- The two kinds of pointer `allocate` can return: a never-dereferenced
dangling sentinel, or a fresh heap allocation. -/
inductive Ptr where
  | dangling : Ptr
  | heap : Ptr
deriving DecidableEq

/-- Embeds `fn allocate<T>(capacity) -> NonNull<T>`: when `size_of::<T>() == 0`
or `capacity == 0` it returns `NonNull::dangling()` without touching the heap,
otherwise it heap-allocates.  `sizeT` stands for `size_of::<T>()`. -/
def allocate (sizeT capacity : Nat) : Ptr :=
  if sizeT = 0 ∨ capacity = 0 then Ptr.dangling else Ptr.heap

/-- Embeds `struct SyncQueue<T, const N: usize>`.  `buffer` is the `N`-slot
backing store; slot contents are `Option T` to record element liveness
(`none` = no live element: uninitialized, or moved out by `pop`). -/
structure SyncQueue (T : Type) (N : Nat) where
  head : Nat
  tail_cache : Nat
  tail : Nat
  head_cache : Nat
  buffer : List (Option T)

/-- The state built by `SyncQueue::new()` after the capacity assertion has
passed: all counters and caches are zero-initialized (`AtomicUsize::default()`,
`Cell::default()`) and the `N` allocated slots hold no live element. -/
def SyncQueue.start (T : Type) (N : Nat) : SyncQueue T N :=
  { head := 0, tail_cache := 0, tail := 0, head_cache := 0,
    buffer := List.replicate N none }

/-- Embeds `SyncQueue::new()`.  The source asserts `N > 0` ("capacity must be
greater than zero"); the panic is modelled by returning `none`. -/
def SyncQueue.new (T : Type) (N : Nat) : Option (SyncQueue T N) :=
  if N = 0 then none else some (SyncQueue.start T N)

/-- Embeds `SyncQueue::len`. -/
def SyncQueue.len (q : SyncQueue T N) : Nat :=
  q.tail - q.head

/-- Embeds `SyncQueue::push`.  Fast-path check against `head_cache`; on
apparent fullness, `head` is re-loaded into `head_cache` and the check is
repeated; on actual fullness the value is handed back.  Otherwise the value
is written to physical slot `tail % N` and `tail + 1` is published. -/
def SyncQueue.push (q : SyncQueue T N) (value : T) : Except T Unit × SyncQueue T N :=
  if q.tail = q.head_cache + N then
    if q.tail = q.head + N then
      (Except.error value, { q with head_cache := q.head })
    else
      (Except.ok (),
        { q with head_cache := q.head,
                 buffer := q.buffer.set (q.tail % N) (some value),
                 tail := q.tail + 1 })
  else
    (Except.ok (),
      { q with buffer := q.buffer.set (q.tail % N) (some value),
               tail := q.tail + 1 })

/-- Embeds `SyncQueue::pop`.  Fast-path check against `tail_cache`; on
apparent emptiness, `tail` is re-loaded into `tail_cache` and the check is
repeated; on actual emptiness `none` is returned.  Otherwise the element at
physical slot `head % N` is moved out (`ptr::read`; the slot no longer holds
a live element) and `head + 1` is published. -/
def SyncQueue.pop (q : SyncQueue T N) : Option T × SyncQueue T N :=
  if q.head = q.tail_cache then
    if q.head = q.tail then
      (none, { q with tail_cache := q.tail })
    else
      ((q.buffer[q.head % N]?).join,
        { q with tail_cache := q.tail,
                 buffer := q.buffer.set (q.head % N) none,
                 head := q.head + 1 })
  else
    ((q.buffer[q.head % N]?).join,
      { q with buffer := q.buffer.set (q.head % N) none,
               head := q.head + 1 })

/-- Embeds `impl Drop for SyncQueue`: result is the ordered list of physical
slot indices on which `drop_in_place` is invoked, paired with whether the
backing storage is deallocated.  `isZST` stands for `size_of::<T>() == 0`;
in that case the source returns immediately, before the loop and the
`dealloc`. -/
def SyncQueue.dropRun (isZST : Bool) (q : SyncQueue T N) : List Nat × Bool :=
  if isZST then ([], false)
  else ((List.range' q.head (q.tail - q.head)).map fun i => i % N, true)

/-- Embeds `Sender<T, N>`: a handle on the shared `SyncQueue`. -/
structure Sender (T : Type) (N : Nat) where
  buffer : SyncQueue T N

/-- Embeds `Receiver<T, N>`: a handle on the shared `SyncQueue`. -/
structure Receiver (T : Type) (N : Nat) where
  buffer : SyncQueue T N

/-- Embeds `Sender::try_send`: delegates to `push`. -/
def Sender.trySend (s : Sender T N) (value : T) : Except T Unit × Sender T N :=
  ((s.buffer.push value).1, ⟨(s.buffer.push value).2⟩)

/-- Embeds `Receiver::try_receive`: delegates to `pop`. -/
def Receiver.tryReceive (r : Receiver T N) : Option T × Receiver T N :=
  ((r.buffer.pop).1, ⟨(r.buffer.pop).2⟩)

/-- Embeds `fn spsc_channel<T, const N: usize>()`: builds one `SyncQueue`
(whose constructor asserts `N > 0`, modelled by `Option`) and hands the one
`Sender` and the one `Receiver` a handle to that same queue. -/
def spscChannel (T : Type) (N : Nat) : Option (Sender T N × Receiver T N) :=
  (SyncQueue.new T N).map fun q => ({ buffer := q }, { buffer := q })

/-- Pushes a list of values left to right; `none` when some push fails. -/
def pushAll (q : SyncQueue T N) : List T → Option (SyncQueue T N)
  | [] => some q
  | v :: vs =>
    match q.push v with
    | (Except.ok _, q1) => pushAll q1 vs
    | (Except.error _, _) => none

/-- Pops `k` times, collecting the results in order. -/
def popN (q : SyncQueue T N) : Nat → List (Option T) × SyncQueue T N
  | 0 => ([], q)
  | k + 1 =>
    ((q.pop).1 :: (popN (q.pop).2 k).1, (popN (q.pop).2 k).2)

/-- Abstraction: the logical contents of the queue, read off the slots of the
logical positions `head..tail` (physical slot `p % N`). -/
def SyncQueue.toList (q : SyncQueue T N) : List (Option T) :=
  (List.range' q.head (q.tail - q.head)).map fun p => (q.buffer[p % N]?).join

/-- State invariant of a constructed channel: counter ordering, cache bounds,
storage length, and slot liveness — every logical position in `[head, tail)`
maps to a slot holding a live element, and every slot hit by no such position
holds none. -/
def SyncQueue.Inv (q : SyncQueue T N) : Prop :=
  0 < N ∧
  q.head ≤ q.tail ∧
  q.tail ≤ q.head + N ∧
  q.head_cache ≤ q.head ∧
  q.tail ≤ q.head_cache + N ∧
  q.tail_cache ≤ q.tail ∧
  q.head ≤ q.tail_cache ∧
  q.buffer.length = N ∧
  (∀ p, p < q.tail → q.head ≤ p → (q.buffer[p % N]?).join.isSome = true) ∧
  (∀ j, j < N → (∀ p, p < q.tail → q.head ≤ p → p % N ≠ j) → q.buffer[j]? = some none)

instance {T : Type} {N : Nat} [DecidableEq T] (q : SyncQueue T N) : Decidable q.Inv := by
  unfold SyncQueue.Inv
  infer_instance

/-- The states a channel can reach: the freshly constructed state, closed
under `push` and `pop`. -/
inductive Reachable (T : Type) (N : Nat) : SyncQueue T N → Prop where
  | mk_new {q : SyncQueue T N} : SyncQueue.new T N = some q → Reachable T N q
  | step_push {q : SyncQueue T N} (v : T) : Reachable T N q → Reachable T N (q.push v).2
  | step_pop {q : SyncQueue T N} : Reachable T N q → Reachable T N (q.pop).2

/-- Two positions of a window shorter than `N` with equal physical slots are
equal. -/
theorem eq_of_mod_eq_of_window {N p r : Nat} (hpr : p ≤ r) (hw : r - p < N)
    (hm : p % N = r % N) : p = r := by
  have hdvd : N ∣ r - p := (Nat.modEq_iff_dvd' hpr).1 hm
  have h0 : r - p = 0 := Nat.eq_zero_of_dvd_of_lt hdvd hw
  omega

theorem SyncQueue.Inv_start (h : 0 < N) : (SyncQueue.start T N).Inv :=
  ⟨h, Nat.le_refl 0, Nat.zero_le _, Nat.le_refl 0, Nat.zero_le _, Nat.le_refl 0, Nat.le_refl 0,
    List.length_replicate N none,
    fun p hp _ => absurd hp (Nat.not_lt_zero p),
    fun j hj _ => by simp [SyncQueue.start, List.getElem?_replicate, hj]⟩

theorem SyncQueue.push_eq_of_full {T : Type} {N : Nat} {q : SyncQueue T N} (hq : q.Inv)
    (hfull : q.tail = q.head + N) (v : T) : q.push v = (Except.error v, q) := by
  obtain ⟨h, tc, t, hc, buf⟩ := q
  simp only [SyncQueue.Inv] at hq
  obtain ⟨hN, h1, h2, h3, h4, h5, h6, h7, h8, h9⟩ := hq
  simp only at hfull h3 h4
  have hch : hc = h := by omega
  subst hch
  simp [SyncQueue.push, hfull]

theorem SyncQueue.push_spec_ok {T : Type} {N : Nat} {q : SyncQueue T N} (hq : q.Inv)
    (hnf : q.tail < q.head + N) (v : T) :
    (q.push v).1 = Except.ok () ∧
    (q.push v).2.head = q.head ∧
    (q.push v).2.tail = q.tail + 1 ∧
    (q.push v).2.tail_cache = q.tail_cache ∧
    (q.push v).2.buffer = q.buffer.set (q.tail % N) (some v) ∧
    q.head_cache ≤ (q.push v).2.head_cache ∧
    (q.push v).2.head_cache ≤ q.head ∧
    q.tail < (q.push v).2.head_cache + N := by
  obtain ⟨h, tc, t, hc, buf⟩ := q
  simp only [SyncQueue.Inv] at hq
  obtain ⟨hN, h1, h2, h3, h4, h5, h6, h7, h8, h9⟩ := hq
  simp only at hnf h3 h4 ⊢
  by_cases hfast : t = hc + N
  · have hne : ¬ t = h + N := by omega
    simp only [SyncQueue.push, if_pos hfast, if_neg hne]
    refine ⟨trivial, trivial, trivial, trivial, trivial, ?_, ?_, ?_⟩ <;> omega
  · simp only [SyncQueue.push, if_neg hfast]
    refine ⟨trivial, trivial, trivial, trivial, trivial, ?_, ?_, ?_⟩ <;> omega

theorem SyncQueue.pop_eq_of_empty {T : Type} {N : Nat} {q : SyncQueue T N} (hq : q.Inv)
    (he : q.head = q.tail) : q.pop = (none, q) := by
  obtain ⟨h, tc, t, hc, buf⟩ := q
  simp only [SyncQueue.Inv] at hq
  obtain ⟨hN, h1, h2, h3, h4, h5, h6, h7, h8, h9⟩ := hq
  simp only at he h5 h6
  have htc : tc = h := by omega
  subst htc
  simp [SyncQueue.pop, he]

theorem SyncQueue.pop_spec_some {T : Type} {N : Nat} {q : SyncQueue T N} (hq : q.Inv)
    (hne : q.head < q.tail) :
    (q.pop).1 = (q.buffer[q.head % N]?).join ∧
    (q.pop).2.head = q.head + 1 ∧
    (q.pop).2.tail = q.tail ∧
    (q.pop).2.head_cache = q.head_cache ∧
    (q.pop).2.buffer = q.buffer.set (q.head % N) none ∧
    q.tail_cache ≤ (q.pop).2.tail_cache ∧
    (q.pop).2.tail_cache ≤ q.tail ∧
    q.head + 1 ≤ (q.pop).2.tail_cache := by
  obtain ⟨h, tc, t, hc, buf⟩ := q
  simp only [SyncQueue.Inv] at hq
  obtain ⟨hN, h1, h2, h3, h4, h5, h6, h7, h8, h9⟩ := hq
  simp only at hne h5 h6 ⊢
  by_cases hfast : h = tc
  · have hnet : ¬ h = t := by omega
    simp only [SyncQueue.pop, if_pos hfast, if_neg hnet]
    refine ⟨trivial, trivial, trivial, trivial, trivial, ?_, ?_, ?_⟩ <;> omega
  · simp only [SyncQueue.pop, if_neg hfast]
    refine ⟨trivial, trivial, trivial, trivial, trivial, ?_, ?_, ?_⟩ <;> omega

theorem mod_ne_of_window {N p r : Nat} (hpr : p < r) (hw : r - p < N) : p % N ≠ r % N :=
  fun hm => absurd (eq_of_mod_eq_of_window (Nat.le_of_lt hpr) hw hm) (Nat.ne_of_lt hpr)

theorem SyncQueue.Inv_push {T : Type} {N : Nat} {q : SyncQueue T N} (hq : q.Inv) (v : T) :
    ((q.push v).2).Inv := by
  obtain ⟨hN, h1, h2, h3, h4, h5, h6, h7, h8, h9⟩ := hq
  by_cases hful : q.tail = q.head + N
  · rw [SyncQueue.push_eq_of_full ⟨hN, h1, h2, h3, h4, h5, h6, h7, h8, h9⟩ hful v]
    exact ⟨hN, h1, h2, h3, h4, h5, h6, h7, h8, h9⟩
  · have hnf : q.tail < q.head + N := by omega
    obtain ⟨hok, hh, ht, htc, hbuf, hc1, hc2, hc3⟩ :=
      SyncQueue.push_spec_ok ⟨hN, h1, h2, h3, h4, h5, h6, h7, h8, h9⟩ hnf v
    refine ⟨hN, ?_, ?_, ?_, ?_, ?_, ?_, ?_, ?_, ?_⟩
    · rw [hh, ht]; omega
    · rw [hh, ht]; omega
    · rw [hh]; exact hc2
    · rw [ht]; omega
    · rw [ht, htc]; omega
    · rw [hh, htc]; omega
    · rw [hbuf]; simpa using h7
    · intro p hp hp2
      rw [ht] at hp
      rw [hh] at hp2
      rw [hbuf]
      by_cases hpt : p = q.tail
      · subst hpt
        rw [List.getElem?_set_self (show q.tail % N < q.buffer.length by
          rw [h7]; exact Nat.mod_lt _ hN)]
        simp
      · have hplt : p < q.tail := by omega
        rw [List.getElem?_set_ne (Ne.symm (mod_ne_of_window hplt (by omega)))]
        exact h8 p hplt hp2
    · intro j hj hmiss
      rw [ht, hh] at hmiss
      rw [hbuf]
      have hjt : q.tail % N ≠ j := hmiss q.tail (by omega) (by omega)
      rw [List.getElem?_set_ne hjt]
      exact h9 j hj fun p hp hp2 => hmiss p (by omega) hp2

theorem SyncQueue.Inv_pop {T : Type} {N : Nat} {q : SyncQueue T N} (hq : q.Inv) :
    ((q.pop).2).Inv := by
  obtain ⟨hN, h1, h2, h3, h4, h5, h6, h7, h8, h9⟩ := hq
  by_cases hemp : q.head = q.tail
  · rw [SyncQueue.pop_eq_of_empty ⟨hN, h1, h2, h3, h4, h5, h6, h7, h8, h9⟩ hemp]
    exact ⟨hN, h1, h2, h3, h4, h5, h6, h7, h8, h9⟩
  · have hne : q.head < q.tail := by omega
    obtain ⟨hv, hh, ht, hhc, hbuf, hc1, hc2, hc3⟩ :=
      SyncQueue.pop_spec_some ⟨hN, h1, h2, h3, h4, h5, h6, h7, h8, h9⟩ hne
    refine ⟨hN, ?_, ?_, ?_, ?_, ?_, ?_, ?_, ?_, ?_⟩
    · rw [hh, ht]; omega
    · rw [hh, ht]; omega
    · rw [hhc, hh]; omega
    · rw [ht, hhc]; omega
    · rw [ht]; omega
    · rw [hh]; omega
    · rw [hbuf]; simpa using h7
    · intro p hp hp2
      rw [ht] at hp
      rw [hh] at hp2
      rw [hbuf]
      have hnemod : q.head % N ≠ p % N := mod_ne_of_window (by omega) (by omega)
      rw [List.getElem?_set_ne hnemod]
      exact h8 p hp (by omega)
    · intro j hj hmiss
      rw [ht, hh] at hmiss
      rw [hbuf]
      by_cases hjh : q.head % N = j
      · subst hjh
        rw [List.getElem?_set_self (show q.head % N < q.buffer.length by
          rw [h7]; exact Nat.mod_lt _ hN)]
      · rw [List.getElem?_set_ne hjh]
        apply h9 j hj
        intro p hp hp2
        rcases Nat.eq_or_lt_of_le hp2 with heq | hlt
        · rw [← heq]; exact hjh
        · exact hmiss p hp (by omega)

theorem SyncQueue.length_toList {T : Type} {N : Nat} (q : SyncQueue T N) :
    q.toList.length = q.tail - q.head := by
  simp [SyncQueue.toList]

theorem SyncQueue.toList_start (T : Type) (N : Nat) : (SyncQueue.start T N).toList = [] := by
  simp [SyncQueue.toList, SyncQueue.start]

theorem SyncQueue.toList_push {T : Type} {N : Nat} {q : SyncQueue T N} (hq : q.Inv)
    (hnf : q.tail < q.head + N) (v : T) :
    ((q.push v).2).toList = q.toList ++ [some v] := by
  obtain ⟨hN, h1, h2, h3, h4, h5, h6, h7, h8, h9⟩ := hq
  obtain ⟨hok, hh, ht, htc, hbuf, hc1, hc2, hc3⟩ :=
    SyncQueue.push_spec_ok ⟨hN, h1, h2, h3, h4, h5, h6, h7, h8, h9⟩ hnf v
  unfold SyncQueue.toList
  rw [hh, ht, hbuf]
  have hm : q.tail + 1 - q.head = (q.tail - q.head) + 1 := by omega
  rw [hm, List.range'_1_concat]
  have hm2 : q.head + (q.tail - q.head) = q.tail := by omega
  rw [hm2, List.map_append]
  congr 1
  · apply List.map_congr_left
    intro p hp
    rw [List.mem_range'_1] at hp
    have hpw : p < q.tail := by omega
    rw [List.getElem?_set_ne (Ne.symm (mod_ne_of_window hpw (by omega)))]
  · simp [List.getElem?_set_self (show q.tail % N < q.buffer.length by
      rw [h7]; exact Nat.mod_lt _ hN)]

theorem SyncQueue.toList_pop {T : Type} {N : Nat} {q : SyncQueue T N} (hq : q.Inv)
    (hne : q.head < q.tail) :
    q.toList = (q.buffer[q.head % N]?).join :: ((q.pop).2).toList := by
  obtain ⟨hN, h1, h2, h3, h4, h5, h6, h7, h8, h9⟩ := hq
  obtain ⟨hv, hh, ht, hhc, hbuf, hc1, hc2, hc3⟩ :=
    SyncQueue.pop_spec_some ⟨hN, h1, h2, h3, h4, h5, h6, h7, h8, h9⟩ hne
  unfold SyncQueue.toList
  rw [hh, ht, hbuf]
  have hm : q.tail - q.head = (q.tail - (q.head + 1)) + 1 := by omega
  rw [hm, List.range'_succ, List.map_cons]
  congr 1
  apply List.map_congr_left
  intro p hp
  rw [List.mem_range'_1] at hp
  rw [List.getElem?_set_ne (mod_ne_of_window (show q.head < p by omega) (by omega))]

theorem pushAll_spec {T : Type} {N : Nat} (vs : List T) :
    ∀ q q' : SyncQueue T N, q.Inv → pushAll q vs = some q' →
      q'.Inv ∧ q'.toList = q.toList ++ vs.map some ∧ q'.head = q.head ∧
      q'.tail = q.tail + vs.length := by
  induction vs with
  | nil =>
    intro q q' hq heq
    simp [pushAll] at heq
    subst heq
    exact ⟨hq, by simp, rfl, rfl⟩
  | cons v vs ih =>
    intro q q' hq heq
    have h2 : q.tail ≤ q.head + N := hq.2.2.1
    by_cases hful : q.tail = q.head + N
    · rw [show pushAll q (v :: vs) = none by
        simp [pushAll, SyncQueue.push_eq_of_full hq hful v]] at heq
      exact absurd heq (by simp)
    · have hnf : q.tail < q.head + N := Nat.lt_of_le_of_ne h2 hful
      obtain ⟨hok, hh, ht, htc, hbuf, hc1, hc2, hc3⟩ := SyncQueue.push_spec_ok hq hnf v
      have hinv1 : ((q.push v).2).Inv := SyncQueue.Inv_push hq v
      have hlist1 := SyncQueue.toList_push hq hnf v
      have hstep : pushAll q (v :: vs) = pushAll (q.push v).2 vs := by
        rcases hpv : q.push v with ⟨r, q1⟩
        rw [hpv] at hok
        simp only at hok
        subst hok
        simp [pushAll, hpv]
      rw [hstep] at heq
      obtain ⟨hi1, hi2, hi3, hi4⟩ := ih (q.push v).2 q' hinv1 heq
      refine ⟨hi1, ?_, ?_, ?_⟩
      · rw [hi2, hlist1]
        simp
      · rw [hi3, hh]
      · rw [hi4, ht]
        simp only [List.length_cons]
        omega

theorem popN_spec {T : Type} {N : Nat} (k : Nat) :
    ∀ q : SyncQueue T N, q.Inv → k ≤ q.tail - q.head →
      (popN q k).1 = q.toList.take k ∧ ((popN q k).2).Inv ∧
      ((popN q k).2).toList = q.toList.drop k := by
  induction k with
  | zero =>
    intro q hq _
    exact ⟨by simp [popN], hq, by simp [popN]⟩
  | succ k ih =>
    intro q hq hk
    have h1 : q.head ≤ q.tail := hq.2.1
    have hne : q.head < q.tail := by omega
    obtain ⟨hv, hh, ht, hhc, hbuf, hc1, hc2, hc3⟩ := SyncQueue.pop_spec_some hq hne
    have hlist := SyncQueue.toList_pop hq hne
    have hinv1 := SyncQueue.Inv_pop hq
    have hk1 : k ≤ (q.pop).2.tail - (q.pop).2.head := by rw [ht, hh]; omega
    obtain ⟨hi1, hi2, hi3⟩ := ih (q.pop).2 hinv1 hk1
    refine ⟨?_, hi2, ?_⟩
    · simp only [popN]
      rw [hi1, hv, hlist]
      simp
    · simp only [popN]
      rw [hi3, hlist]
      simp

theorem Inv_reachable {T : Type} {N : Nat} {q : SyncQueue T N} (hq : Reachable T N q) :
    q.Inv := by
  induction hq with
  | mk_new hnew =>
    unfold SyncQueue.new at hnew
    by_cases h0 : N = 0
    · rw [if_pos h0] at hnew
      exact absurd hnew (by simp)
    · rw [if_neg h0] at hnew
      simp only [Option.some.injEq] at hnew
      rw [← hnew]
      exact SyncQueue.Inv_start (Nat.pos_of_ne_zero h0)
  | step_push v _ ih => exact SyncQueue.Inv_push ih v
  | step_pop _ ih => exact SyncQueue.Inv_pop ih

/-- C1: FIFO order — for every sequence of values pushed while capacity
permits (every push succeeds, starting from a fresh channel), performing the
same number of pops yields exactly those values in push order, with no gaps
(`none`s) or duplicates. -/
theorem fifo_order (T : Type) (N : Nat) (vs : List T) (q : SyncQueue T N) (hN : 0 < N)
    (h : pushAll (SyncQueue.start T N) vs = some q) :
    (popN q vs.length).1 = vs.map some := by
  obtain ⟨hinv, hlist, hh, ht⟩ := pushAll_spec vs _ q (SyncQueue.Inv_start hN) h
  rw [SyncQueue.toList_start, List.nil_append] at hlist
  have hk : vs.length ≤ q.tail - q.head := by
    have hlen := SyncQueue.length_toList q
    rw [hlist] at hlen
    simp only [List.length_map] at hlen
    omega
  obtain ⟨h1, _, _⟩ := popN_spec vs.length q hinv hk
  rw [h1, hlist]
  exact List.take_of_length_le (by simp)

/-- C2: capacity bound — after exactly `N` successful pushes on a fresh
channel (zero pops), the next push fails handing the value back unchanged,
one pop returns the first pushed value, and a retry of the failed push then
succeeds. -/
theorem capacity_bound (T : Type) (N : Nat) (vs : List T) (w : T) (q : SyncQueue T N)
    (hN : 0 < N) (hlen : vs.length = N)
    (h : pushAll (SyncQueue.start T N) vs = some q) :
    q.push w = (Except.error w, q) ∧
    (q.pop).1 = vs.head? ∧
    (((q.pop).2).push w).1 = Except.ok () := by
  obtain ⟨hinv, hlist, hh, ht⟩ := pushAll_spec vs _ q (SyncQueue.Inv_start hN) h
  rw [SyncQueue.toList_start, List.nil_append] at hlist
  have hh0 : q.head = 0 := hh
  have ht0 : q.tail = vs.length := by rw [ht]; show 0 + vs.length = vs.length; omega
  have hful : q.tail = q.head + N := by omega
  have hne : q.head < q.tail := by omega
  refine ⟨SyncQueue.push_eq_of_full hinv hful w, ?_, ?_⟩
  · obtain ⟨hv, _, _, _, _, _, _, _⟩ := SyncQueue.pop_spec_some hinv hne
    rw [hv]
    have hcons := SyncQueue.toList_pop hinv hne
    rw [hlist] at hcons
    cases vs with
    | nil => simp at hlen; omega
    | cons a vs' =>
      simp only [List.map_cons] at hcons
      injection hcons with h1 _
      rw [← h1]
      simp
  · have hinv2 := SyncQueue.Inv_pop hinv
    obtain ⟨_, hh2, ht2, _, _, _, _, _⟩ := SyncQueue.pop_spec_some hinv hne
    have hnf2 : (q.pop).2.tail < (q.pop).2.head + N := by rw [hh2, ht2]; omega
    exact (SyncQueue.push_spec_ok hinv2 hnf2 w).1

/-- C3: full-error atomicity — `push` (and `try_send`, which delegates to it)
on a saturated buffer (`tail = head + N`) hands the rejected value back
unchanged and leaves the channel state (counters, caches, buffer slots)
exactly as it was.  (The source re-writes `head_cache` on this path, but on a
saturated buffer the re-loaded `head` equals the cached value, so the state is
unchanged.) -/
theorem push_full_no_mutation {T : Type} {N : Nat} (q : SyncQueue T N) (v : T)
    (hq : q.Inv) (hsat : q.tail = q.head + N) :
    q.push v = (Except.error v, q) ∧
    (Sender.mk q).trySend v = (Except.error v, Sender.mk q) := by
  have hp := SyncQueue.push_eq_of_full hq hsat v
  refine ⟨hp, ?_⟩
  simp only [Sender.trySend, hp]

/-- C4: empty result — with the channel invariant, `pop` (and `try_receive`,
which delegates to it) returns `none` exactly when `head = tail`; on a
non-empty buffer it returns the value stored at logical position `head`
(physical slot `head % N`) and advances `head` by exactly one. -/
theorem pop_empty_iff {T : Type} {N : Nat} (q : SyncQueue T N) (hq : q.Inv) :
    ((q.pop).1 = none ↔ q.head = q.tail) ∧
    (q.head ≠ q.tail →
      (q.pop).1 = (q.buffer[q.head % N]?).join ∧
      (q.pop).2.head = q.head + 1) ∧
    ((Receiver.mk q).tryReceive).1 = (q.pop).1 := by
  have h1 : q.head ≤ q.tail := hq.2.1
  refine ⟨⟨?_, ?_⟩, ?_, rfl⟩
  · intro hnone
    by_contra hne
    have hlt : q.head < q.tail := Nat.lt_of_le_of_ne h1 hne
    have hv := (SyncQueue.pop_spec_some hq hlt).1
    have hsome := hq.2.2.2.2.2.2.2.2.1 q.head hlt (Nat.le_refl _)
    rw [hnone] at hv
    rw [← hv] at hsome
    simp at hsome
  · intro hemp
    rw [SyncQueue.pop_eq_of_empty hq hemp]
  · intro hne
    have hlt : q.head < q.tail := Nat.lt_of_le_of_ne h1 hne
    obtain ⟨hv, hh, _, _, _, _, _, _⟩ := SyncQueue.pop_spec_some hq hlt
    exact ⟨hv, hh⟩

/-- C5: ring invariant — in every state reachable by any sequence of pushes
and pops from a freshly constructed channel, `head ≤ tail` and
`tail − head ≤ N`, and both operations preserve this.  (Every element access
of the embedding addresses physical slot `p % N` for logical position `p`, by
definition of `push`, `pop` and `dropRun`.) -/
theorem ring_invariant {T : Type} {N : Nat} (q : SyncQueue T N) (v : T)
    (hq : Reachable T N q) :
    (q.head ≤ q.tail ∧ q.tail - q.head ≤ N) ∧
    ((q.push v).2.head ≤ (q.push v).2.tail ∧ (q.push v).2.tail - (q.push v).2.head ≤ N) ∧
    ((q.pop).2.head ≤ (q.pop).2.tail ∧ (q.pop).2.tail - (q.pop).2.head ≤ N) := by
  have h := Inv_reachable hq
  have hp := SyncQueue.Inv_push h v
  have hpo := SyncQueue.Inv_pop h
  have e1 := h.2.1
  have e2 := h.2.2.1
  have e3 := hp.2.1
  have e4 := hp.2.2.1
  have e5 := hpo.2.1
  have e6 := hpo.2.2.1
  exact ⟨⟨e1, by omega⟩, ⟨e3, by omega⟩, ⟨e5, by omega⟩⟩

/-- C6: construction rejection — `spsc_channel` with capacity `N = 0` fails
fatally (the `assert!` panic, modelled as `none`) and never yields a usable
channel; for every `N > 0` it returns exactly one `Sender` and one `Receiver`
bound to the same freshly constructed `SyncQueue`. -/
theorem construction_rejection (T : Type) (N : Nat) :
    (N = 0 → spscChannel T N = none) ∧
    (0 < N → spscChannel T N =
      some (Sender.mk (SyncQueue.start T N), Receiver.mk (SyncQueue.start T N))) := by
  constructor
  · intro h0
    simp [spscChannel, SyncQueue.new, h0]
  · intro hN
    simp [spscChannel, SyncQueue.new, Nat.pos_iff_ne_zero.1 hN]

/-- C7 counterexample: the claim says that for a zero-sized `T` only the
storage release is skipped at teardown, the element destructors still being
invoked.  The source's `Drop` returns before the destructor loop whenever
`size_of::<T>() == 0`: in a state with one live element at logical position 0
the destructor list is empty, although positions `head..tail` map to the
physical slot list `[0]`. -/
theorem teardown_zst_counterexample :
    (SyncQueue.dropRun true (⟨0, 0, 1, 0, [some 0]⟩ : SyncQueue Nat 1)).1 = [] ∧
    (List.range' 0 (1 - 0)).map (fun i => i % 1) = [0] := by
  constructor <;> rfl

/-- C7 (amended): teardown correctness — when the queue is destroyed with
`K = tail − head` live elements and `T` is not zero-sized, `drop_in_place` is
invoked once per logical position `head..tail` at physical slot `p % N`, the
invoked slots are pairwise distinct (no double-destruction), each holds a live
element, every slot not invoked holds none (no leak), and the backing storage
is then released.  When `T` is zero-sized, both the destructor loop and the
storage release are skipped. -/
theorem teardown_correct {T : Type} {N : Nat} (q : SyncQueue T N) (hq : q.Inv) :
    (SyncQueue.dropRun false q).2 = true ∧
    (SyncQueue.dropRun false q).1.length = q.tail - q.head ∧
    (SyncQueue.dropRun false q).1.Nodup ∧
    (∀ j ∈ (SyncQueue.dropRun false q).1, (q.buffer[j]?).join.isSome = true) ∧
    (∀ j, j < N → j ∉ (SyncQueue.dropRun false q).1 → q.buffer[j]? = some none) ∧
    SyncQueue.dropRun true q = ([], false) := by
  obtain ⟨hN, h1, h2, h3, h4, h5, h6, h7, h8, h9⟩ := hq
  refine ⟨rfl, by simp [SyncQueue.dropRun], ?_, ?_, ?_, rfl⟩
  · simp only [SyncQueue.dropRun, if_neg Bool.false_ne_true]
    apply List.Nodup.map_on ?_ (List.nodup_range' q.head (q.tail - q.head))
    intro x hx y hy hmod
    rw [List.mem_range'_1] at hx hy
    rcases Nat.le_total x y with hxy | hyx
    · exact eq_of_mod_eq_of_window hxy (by omega) hmod
    · exact (eq_of_mod_eq_of_window hyx (by omega) hmod.symm).symm
  · intro j hj
    simp only [SyncQueue.dropRun, if_neg Bool.false_ne_true, List.mem_map] at hj
    obtain ⟨p, hp, rfl⟩ := hj
    rw [List.mem_range'_1] at hp
    exact h8 p (by omega) (by omega)
  · intro j hj hnot
    apply h9 j hj
    intro p hp hp2
    intro hcontra
    apply hnot
    simp only [SyncQueue.dropRun, if_neg Bool.false_ne_true, List.mem_map]
    exact ⟨p, List.mem_range'_1.2 ⟨hp2, by omega⟩, hcontra⟩

/-- C8: cache staleness safety — in every reachable state the caches lag
their authoritative counters (`head_cache ≤ head`, `tail_cache ≤ tail`), and
the outcome of `push` and `pop` is always the one dictated by the
authoritative counters: `push` rejects exactly on a saturated buffer and
`pop` returns `none` exactly on an empty one, so a stale cache only ever
forces the conservative re-load, never a wrong fast-path decision. -/
theorem cache_safety {T : Type} {N : Nat} (q : SyncQueue T N) (v : T)
    (hq : Reachable T N q) :
    q.head_cache ≤ q.head ∧ q.tail_cache ≤ q.tail ∧
    ((q.push v).1 = Except.error v ↔ q.tail = q.head + N) ∧
    ((q.pop).1 = none ↔ q.head = q.tail) := by
  have h := Inv_reachable hq
  refine ⟨h.2.2.2.1, h.2.2.2.2.2.1, ⟨?_, ?_⟩, ⟨?_, ?_⟩⟩
  · intro herr
    by_contra hne
    have hnf : q.tail < q.head + N := Nat.lt_of_le_of_ne h.2.2.1 hne
    have hok := (SyncQueue.push_spec_ok h hnf v).1
    rw [herr] at hok
    exact absurd hok (by simp)
  · intro hful
    rw [SyncQueue.push_eq_of_full h hful v]
  · intro hnone
    by_contra hne
    have hlt : q.head < q.tail := Nat.lt_of_le_of_ne h.2.1 hne
    have hv := (SyncQueue.pop_spec_some h hlt).1
    have hsome := h.2.2.2.2.2.2.2.2.1 q.head hlt (Nat.le_refl _)
    rw [hnone] at hv
    rw [← hv] at hsome
    simp at hsome
  · intro hemp
    rw [SyncQueue.pop_eq_of_empty h hemp]

/-- C9: zero-sized payload support — for a zero-sized element type
(`size_of::<T>() = 0`) and any capacity `N ≥ 1`, `allocate` returns the
dangling sentinel (no heap allocation), teardown releases no storage, and a
pushed value still round-trips through `pop`. -/
theorem zst_support (T : Type) (N : Nat) (v : T) (hN : 1 ≤ N) :
    allocate 0 N = Ptr.dangling ∧
    (∀ q : SyncQueue T N, SyncQueue.dropRun true q = ([], false)) ∧
    ((SyncQueue.start T N).push v).1 = Except.ok () ∧
    (((SyncQueue.start T N).push v).2.pop).1 = some v := by
  have hstart := SyncQueue.Inv_start (T := T) hN
  have hnf : (SyncQueue.start T N).tail < (SyncQueue.start T N).head + N := by
    show 0 < 0 + N
    omega
  obtain ⟨hok, hh, ht, htc, hbuf, hc1, hc2, hc3⟩ := SyncQueue.push_spec_ok hstart hnf v
  have hinv1 := SyncQueue.Inv_push hstart v
  refine ⟨rfl, fun q => rfl, hok, ?_⟩
  have hne : ((SyncQueue.start T N).push v).2.head < ((SyncQueue.start T N).push v).2.tail := by
    rw [hh, ht]
    show (0 : Nat) < 0 + 1
    omega
  obtain ⟨hv, _, _, _, _, _, _, _⟩ := SyncQueue.pop_spec_some hinv1 hne
  rw [hv, hbuf, hh]
  show (((List.replicate N (none : Option T)).set (0 % N) (some v))[0 % N]?).join = some v
  rw [Nat.zero_mod]
  rw [List.getElem?_set_self (by simpa using hN)]
  rfl

/-- C10: in-bounds slot access — under the channel invariant every raw buffer
access (the slot write in `push`, the slot read in `pop`, each destructor call
in teardown) addresses index `p % N < N`, inside the `N`-slot allocation;
moreover `push`, whenever it proceeds past its full-check
(`tail < head + N`), writes to a slot holding no live element, and `pop`,
whenever it proceeds past its empty-check (`head < tail`), reads a slot
holding a live element — so the guarding error branches are never bypassed
incorrectly. -/
theorem inbounds_access {T : Type} {N : Nat} (q : SyncQueue T N) (hq : q.Inv) :
    q.tail % N < N ∧ q.head % N < N ∧
    (∀ j ∈ (SyncQueue.dropRun false q).1, j < N) ∧
    (q.tail < q.head + N → q.buffer[q.tail % N]? = some none) ∧
    (q.head < q.tail → (q.buffer[q.head % N]?).join.isSome = true) := by
  obtain ⟨hN, h1, h2, h3, h4, h5, h6, h7, h8, h9⟩ := hq
  refine ⟨Nat.mod_lt _ hN, Nat.mod_lt _ hN, ?_, ?_, ?_⟩
  · intro j hj
    simp only [SyncQueue.dropRun, if_neg Bool.false_ne_true, List.mem_map] at hj
    obtain ⟨p, hp, rfl⟩ := hj
    exact Nat.mod_lt _ hN
  · intro hnf
    apply h9 _ (Nat.mod_lt _ hN)
    intro p hp hp2
    exact mod_ne_of_window hp (by omega)
  · intro hne
    exact h8 q.head hne (Nat.le_refl _)

/-- Witness for C1: capacity 4, pushes 10, 20, 30 all succeed; three pops
return them in order. -/
theorem fifo_order_witness :
    (popN (⟨0, 0, 3, 0, [some 10, some 20, some 30, none]⟩ : SyncQueue Nat 4) 3).1 =
      [some 10, some 20, some 30] :=
  fifo_order Nat 4 [10, 20, 30] _ (by decide) rfl

/-- Witness for C2: capacity 4, after pushes 1,2,3,4 a push of 5 fails
returning 5, a pop returns 1, and pushing 5 again succeeds. -/
theorem capacity_bound_witness :
    (⟨0, 0, 4, 0, [some 1, some 2, some 3, some 4]⟩ : SyncQueue Nat 4).push 5 =
      (Except.error 5, ⟨0, 0, 4, 0, [some 1, some 2, some 3, some 4]⟩) ∧
    ((⟨0, 0, 4, 0, [some 1, some 2, some 3, some 4]⟩ : SyncQueue Nat 4).pop).1 = some 1 ∧
    ((((⟨0, 0, 4, 0, [some 1, some 2, some 3, some 4]⟩ : SyncQueue Nat 4).pop).2.push 5)).1 =
      Except.ok () :=
  capacity_bound Nat 4 [1, 2, 3, 4] 5 _ (by decide) (by decide) rfl

/-- Witness for C3 on a saturated capacity-1 channel holding 7: pushing 9
fails returning 9 and the state is untouched. -/
theorem push_full_no_mutation_witness :
    (⟨0, 0, 1, 0, [some 7]⟩ : SyncQueue Nat 1).push 9 =
      (Except.error 9, ⟨0, 0, 1, 0, [some 7]⟩) ∧
    (Sender.mk (⟨0, 0, 1, 0, [some 7]⟩ : SyncQueue Nat 1)).trySend 9 =
      (Except.error 9, Sender.mk ⟨0, 0, 1, 0, [some 7]⟩) :=
  push_full_no_mutation (⟨0, 0, 1, 0, [some 7]⟩ : SyncQueue Nat 1) 9 (by decide) (by decide)

/-- Witness for C4 on a capacity-1 channel holding 7. -/
theorem pop_empty_iff_witness :
    (((SyncQueue.mk 0 0 1 0 [some 7] : SyncQueue Nat 1).pop.1 = none ↔ (0 : Nat) = 1) ∧
      ((0 : Nat) ≠ 1 →
        (SyncQueue.mk 0 0 1 0 [some 7] : SyncQueue Nat 1).pop.1 = some 7 ∧
        (SyncQueue.mk 0 0 1 0 [some 7] : SyncQueue Nat 1).pop.2.head = 0 + 1) ∧
      ((Receiver.mk (SyncQueue.mk 0 0 1 0 [some 7] : SyncQueue Nat 1)).tryReceive).1 =
        (SyncQueue.mk 0 0 1 0 [some 7] : SyncQueue Nat 1).pop.1) :=
  pop_empty_iff (SyncQueue.mk 0 0 1 0 [some 7] : SyncQueue Nat 1) (by decide)

/-- Witness for C5 at the freshly constructed state of a capacity-2 channel. -/
theorem ring_invariant_witness :
    ((SyncQueue.start Nat 2).head ≤ (SyncQueue.start Nat 2).tail ∧
      (SyncQueue.start Nat 2).tail - (SyncQueue.start Nat 2).head ≤ 2) ∧
    (((SyncQueue.start Nat 2).push 5).2.head ≤ ((SyncQueue.start Nat 2).push 5).2.tail ∧
      ((SyncQueue.start Nat 2).push 5).2.tail - ((SyncQueue.start Nat 2).push 5).2.head ≤ 2) ∧
    (((SyncQueue.start Nat 2).pop).2.head ≤ ((SyncQueue.start Nat 2).pop).2.tail ∧
      ((SyncQueue.start Nat 2).pop).2.tail - ((SyncQueue.start Nat 2).pop).2.head ≤ 2) :=
  ring_invariant _ 5 (Reachable.mk_new rfl)

/-- Witness for C6 at capacities 0 and 1. -/
theorem construction_rejection_witness :
    spscChannel Nat 0 = none ∧
    spscChannel Nat 1 =
      some (Sender.mk (SyncQueue.start Nat 1), Receiver.mk (SyncQueue.start Nat 1)) :=
  ⟨(construction_rejection Nat 0).1 rfl, (construction_rejection Nat 1).2 (by decide)⟩

/-- Witness for C7 (amended) on a capacity-2 channel holding the two live
elements 3 and 4. -/
theorem teardown_correct_witness :
    (SyncQueue.dropRun false (⟨0, 0, 2, 0, [some 3, some 4]⟩ : SyncQueue Nat 2)).2 = true ∧
    (SyncQueue.dropRun false (⟨0, 0, 2, 0, [some 3, some 4]⟩ : SyncQueue Nat 2)).1.length =
      2 - 0 ∧
    (SyncQueue.dropRun false (⟨0, 0, 2, 0, [some 3, some 4]⟩ : SyncQueue Nat 2)).1.Nodup ∧
    (∀ j ∈ (SyncQueue.dropRun false (⟨0, 0, 2, 0, [some 3, some 4]⟩ : SyncQueue Nat 2)).1,
      (((⟨0, 0, 2, 0, [some 3, some 4]⟩ : SyncQueue Nat 2)).buffer[j]?).join.isSome = true) ∧
    (∀ j, j < 2 →
      j ∉ (SyncQueue.dropRun false (⟨0, 0, 2, 0, [some 3, some 4]⟩ : SyncQueue Nat 2)).1 →
      ((⟨0, 0, 2, 0, [some 3, some 4]⟩ : SyncQueue Nat 2)).buffer[j]? = some none) ∧
    SyncQueue.dropRun true (⟨0, 0, 2, 0, [some 3, some 4]⟩ : SyncQueue Nat 2) = ([], false) :=
  teardown_correct (⟨0, 0, 2, 0, [some 3, some 4]⟩ : SyncQueue Nat 2) (by decide)

/-- Witness for C8 at the freshly constructed state of a capacity-2 channel. -/
theorem cache_safety_witness :
    (SyncQueue.start Nat 2).head_cache ≤ (SyncQueue.start Nat 2).head ∧
    (SyncQueue.start Nat 2).tail_cache ≤ (SyncQueue.start Nat 2).tail ∧
    (((SyncQueue.start Nat 2).push 5).1 = Except.error 5 ↔
      (SyncQueue.start Nat 2).tail = (SyncQueue.start Nat 2).head + 2) ∧
    (((SyncQueue.start Nat 2).pop).1 = none ↔
      (SyncQueue.start Nat 2).head = (SyncQueue.start Nat 2).tail) :=
  cache_safety _ 5 (Reachable.mk_new rfl)

/-- Witness for C9 with the unit payload and capacity 1. -/
theorem zst_support_witness :
    allocate 0 1 = Ptr.dangling ∧
    (∀ q : SyncQueue Unit 1, SyncQueue.dropRun true q = ([], false)) ∧
    ((SyncQueue.start Unit 1).push ()).1 = Except.ok () ∧
    (((SyncQueue.start Unit 1).push ()).2.pop).1 = some () :=
  zst_support Unit 1 () (by decide)

/-- Witness for C10 on a capacity-2 channel holding one live element 5 at
slot 0. -/
theorem inbounds_access_witness :
    (1 : Nat) % 2 < 2 ∧ (0 : Nat) % 2 < 2 ∧
    (∀ j ∈ (SyncQueue.dropRun false (⟨0, 0, 1, 0, [some 5, none]⟩ : SyncQueue Nat 2)).1,
      j < 2) ∧
    ((1 : Nat) < 0 + 2 →
      ((⟨0, 0, 1, 0, [some 5, none]⟩ : SyncQueue Nat 2)).buffer[(1 : Nat) % 2]? = some none) ∧
    ((0 : Nat) < 1 →
      (((⟨0, 0, 1, 0, [some 5, none]⟩ : SyncQueue Nat 2)).buffer[(0 : Nat) % 2]?).join.isSome =
        true) :=
  inbounds_access (⟨0, 0, 1, 0, [some 5, none]⟩ : SyncQueue Nat 2) (by decide)
